import Mathlib

/-!
Verification development for the Irregular repository.

The repository ships the declaration header src/Sources/CUnicode/include/uregex.h
of an ICU-style regular-expression C API: pattern compilation, a region-aware
matcher over a subject text, capture-group access by index and name, bounds
flags, hitEnd diagnostics and cooperative cancellation callbacks.  The matching
engine itself is not part of the sources, so the definitions below are a shallow
embedding modelled from the specification: the core regex language and its
declarative semantics, a positional backtracking search over a text with an
explicit region limit, the mutable matcher state, and a step-counted work-stack
machine for the cancellation hooks.
-/

namespace Irregular

/-- Modelled from the spec: the core of the pattern language that the Pattern
Compiler produces a Matching Program for (section 4.1: literals, grouping,
alternation, quantifiers via Kleene star; the remaining constructs desugar to
these for the properties under verification). -/
inductive Regex where
  | fail : Regex
  | eps : Regex
  | chr (c : Char) : Regex
  | cat (r s : Regex) : Regex
  | alt (r s : Regex) : Regex
  | star (r : Regex) : Regex
deriving DecidableEq, Repr

/-- Declarative matching semantics: RMatch r w holds when the pattern r matches
exactly the character list w.  This is the mathematical baseline the engine is
compared against. -/
inductive RMatch : Regex → List Char → Prop where
  | eps : RMatch .eps []
  | chr (c : Char) : RMatch (.chr c) [c]
  | cat {r s : Regex} {u v : List Char} :
      RMatch r u → RMatch s v → RMatch (.cat r s) (u ++ v)
  | altL {r s : Regex} {u : List Char} : RMatch r u → RMatch (.alt r s) u
  | altR {r s : Regex} {u : List Char} : RMatch s u → RMatch (.alt r s) u
  | starNil {r : Regex} : RMatch (.star r) []
  | starCons {r : Regex} {u v : List Char} :
      RMatch r u → RMatch (.star r) v → RMatch (.star r) (u ++ v)

/-- Substring of a text between two native indices: the characters of t in
positions p (inclusive) to q (exclusive). -/
def slice (t : List Char) (p q : Nat) : List Char :=
  (t.take q).drop p

/-- Modelled from the spec: the set of end positions, in backtracking priority
order, that the Matcher execution engine can reach when matching pattern r in
text t starting at native index p, never reading past the region limit L
(section 4.3: backtracking executor, alternation in source order, greedy star,
star iterations required to make progress). -/
def ends (t : List Char) (L : Nat) : Regex → Nat → List Nat
  | .fail, _ => []
  | .eps, p => [p]
  | .chr c, p => if p < L ∧ t[p]? = some c then [p + 1] else []
  | .cat r s, p => (ends t L r p).flatMap (fun q => ends t L s q)
  | .alt r s, p => ends t L r p ++ ends t L s p
  | .star r, p =>
      ((ends t L r p).flatMap
        (fun q => if p < q ∧ q ≤ L then ends t L (.star r) q else [])) ++ [p]
termination_by r p => (sizeOf r, L - p)
decreasing_by
  all_goals simp_wf
  all_goals first
    | exact Prod.Lex.left _ _ (by omega)
    | exact Prod.Lex.right _ (by omega)

/-- Modelled from the spec: the set of scan-cursor positions the backtracking
executor visits while attempting a match of r anchored at p with region limit
L.  A character test first checks that the cursor is short of the limit; an
attempt that asks for input at the limit has, in the words of the spec, an
attempt whose cursor advanced to the region limit (section 4.3, hitEnd). -/
def reachSet (t : List Char) (L : Nat) : Regex → Nat → List Nat
  | .fail, p => [p]
  | .eps, p => [p]
  | .chr c, p => if p < L ∧ t[p]? = some c then [p, p + 1] else [p]
  | .cat r s, p =>
      reachSet t L r p ++ (ends t L r p).flatMap (fun q => reachSet t L s q)
  | .alt r s, p => reachSet t L r p ++ reachSet t L s p
  | .star r, p =>
      reachSet t L r p ++
        (ends t L r p).flatMap
          (fun q => if p < q ∧ q ≤ L then reachSet t L (.star r) q else [])
termination_by r p => (sizeOf r, L - p)
decreasing_by
  all_goals simp_wf
  all_goals first
    | exact Prod.Lex.left _ _ (by omega)
    | exact Prod.Lex.right _ (by omega)

/-- Modelled from the spec: the find loop of the search engine (section 4.3,
findFirst and findNext).  Starting at candidate index p it attempts an anchored
match at each successive index within the region; it stops at the first index
with a non-empty set of match ends and reports that index together with the
first end position in backtracking priority order.  The Boolean records
whether any attempt performed by the loop advanced its scan cursor to the
region limit (the hitEnd diagnostic of the operation). -/
def findFrom (t : List Char) (L : Nat) (r : Regex) (p : Nat) : Option (Nat × Nat) × Bool :=
  if _hp : p ≤ L then
    match (ends t L r p).head? with
    | some q => (some (p, q), decide (L ∈ reachSet t L r p))
    | none =>
        let rest := findFrom t L r (p + 1)
        (rest.1, (decide (L ∈ reachSet t L r p) || rest.2))
  else (none, false)
termination_by L + 1 - p

/-- Fuel-driven worker for the findNext iteration: at each round the search
runs from start p; after a match the next round starts at its end position,
advanced by one unit when the match was zero-length.  The fuel only bounds the
number of rounds so that the function is total; the wrapper supplies enough
fuel to exhaust the region. -/
def findAllFromAux (t : List Char) (L : Nat) (r : Regex) : Nat → Nat → List (Nat × Nat)
  | 0, _ => []
  | fuel + 1, p =>
      match (findFrom t L r p).1 with
      | none => []
      | some (ms, me) =>
          (ms, me) :: findAllFromAux t L r fuel (if me = ms then me + 1 else me)

/-- Modelled from the spec: the sequence of matches produced by findFirst
followed by repeated findNext (sections 4.3 and 8): after a match the next
search begins at its end position, and after a zero-length match the search
start is advanced by one unit to guarantee forward progress. -/
def findAllFrom (t : List Char) (L : Nat) (r : Regex) (p : Nat) : List (Nat × Nat) :=
  findAllFromAux t L r (L + 1 - p) p

/-- Modelled from the spec: the error conditions of the API that the claims
under verification distinguish (section 7): success, range and usage errors,
unknown-group-name errors, and the distinguished cancellation error raised
when a callback aborts an operation. -/
inductive UErrorCode where
  | U_ZERO_ERROR : UErrorCode
  | U_INDEX_OUTOFBOUNDS_ERROR : UErrorCode
  | U_REGEX_INVALID_CAPTURE_GROUP_NAME : UErrorCode
  | U_REGEX_STOPPED_BY_CALLER : UErrorCode
deriving DecidableEq, Repr

/-- Modelled from the spec: the compiled Matching Program artifact as far as
the claims observe it (section 3): the saved source form of the pattern, the
compiled mode flags, the capture-group count and the group-name table.  The
instruction stream itself is carried separately by the Matcher as a value of
type Regex. -/
structure MatchingProgram where
  pattern : String
  flags : Nat
  groupCount : Nat
  groupNames : List (String × Nat)
deriving DecidableEq, Repr

/-- Skip to just past the first occurrence of the stop character. -/
def skipPast (stop : Char) (l : List Char) : List Char :=
  (l.dropWhile (fun c => c ≠ stop)).drop 1

/-- Modelled from the spec: the group-name table builder of the Pattern
Compiler (sections 3 and 4.1).  Capturing groups are numbered in order of
first occurrence of their opening parenthesis, group 0 being reserved for the
whole match; a named group contributes its name at its assigned number; a
group opened with a question mark (non-capturing group, lookaround) receives
no number; escaped characters and character classes do not open groups.  A
trailing backslash is a syntax error.  The fuel argument makes the recursion
structural; every step consumes at least one character, so one unit of fuel
per character plus one is always sufficient. -/
def scanGroupsAux : Nat → List Char → Nat → List (String × Nat) →
    Option (Nat × List (String × Nat))
  | 0, _, _, _ => none
  | _ + 1, [], count, names => some (count, names)
  | fuel + 1, '\\' :: rest, count, names =>
      match rest with
      | [] => none
      | _ :: rest2 => scanGroupsAux fuel rest2 count names
  | fuel + 1, '[' :: rest, count, names =>
      scanGroupsAux fuel (skipPast ']' rest) count names
  | fuel + 1, '(' :: '?' :: '<' :: c :: rest, count, names =>
      if c = '=' ∨ c = '!' then scanGroupsAux fuel rest count names
      else
        scanGroupsAux fuel (skipPast '>' (c :: rest)) (count + 1)
          (names ++ [(String.mk ((c :: rest).takeWhile (fun ch => ch ≠ '>')), count + 1)])
  | fuel + 1, '(' :: '?' :: rest, count, names => scanGroupsAux fuel rest count names
  | fuel + 1, '(' :: rest, count, names => scanGroupsAux fuel rest (count + 1) names
  | fuel + 1, _ :: rest, count, names => scanGroupsAux fuel rest count names

/-- Modelled from the spec: the group-name table builder run with sufficient
fuel for the whole pattern. -/
def scanGroups (l : List Char) (count : Nat) (names : List (String × Nat)) :
    Option (Nat × List (String × Nat)) :=
  scanGroupsAux (l.length + 1) l count names

/-- Modelled from the spec: pattern compilation (section 4.1).  The source
form of the pattern and the flags are saved in the compiled object; the
group-name table is built by the scanner; duplicate group names are a compile
error. -/
def uregex_open (pattern : String) (flags : Nat) : Option MatchingProgram :=
  match scanGroups pattern.data 0 [] with
  | none => none
  | some (count, names) =>
      if (names.map Prod.fst).Nodup then
        some ⟨pattern, flags, count, names⟩
      else none

/-- Modelled from the spec: compilation from a UText pattern extracts and
saves the contents, behaving exactly as compilation from a string of the same
contents (header: the contents of the pattern UText will be extracted and
saved, to match the behavior of uregex_open). -/
def uregex_openUText : String → Nat → Option MatchingProgram :=
  uregex_open

/-- Modelled from the spec: returns the source form of the pattern and its
length, working even if the pattern was originally specified as a UText. -/
def uregex_pattern (rx : MatchingProgram) : String × Nat :=
  (rx.pattern, rx.pattern.length)

/-- Modelled from the spec: returns the source text of the pattern, working
even if the pattern was originally specified as a UChar string. -/
def uregex_patternUText (rx : MatchingProgram) : String :=
  rx.pattern

/-- Modelled from the spec: the match mode flags supplied at compile time. -/
def uregex_flags (rx : MatchingProgram) : Nat :=
  rx.flags

/-- Modelled from the spec: the number of capturing groups in the pattern. -/
def uregex_groupCount (rx : MatchingProgram) : Nat :=
  rx.groupCount

/-- Modelled from the spec: the group number for a named capture group, an
unknown-name error if the name does not appear in the pattern. -/
def uregex_groupNumberFromName (rx : MatchingProgram) (name : String) :
    Int × UErrorCode :=
  match rx.groupNames.lookup name with
  | some n => ((n : Int), .U_ZERO_ERROR)
  | none => (-1, .U_REGEX_INVALID_CAPTURE_GROUP_NAME)

/-- Modelled from the spec: the mutable Matcher execution context (section 3):
the bound Matching Program instructions, the bound subject text, the current
region, the bounds-transparency flags, the last-match state with its capture
offsets, the hitEnd diagnostic of the most recent operation, and the optional
match-step callback.  Offsets use the no-match sentinel -1. -/
structure Matcher where
  prog : Regex
  text : List Char
  regionStart : Nat
  regionLimit : Nat
  transparentBounds : Bool
  anchoringBounds : Bool
  matchValid : Bool
  matchStart : Int
  matchEnd : Int
  groups : List (Int × Int)
  hitEnd : Bool
  stepCallback : Option (Nat → Bool)

/-- Modelled from the spec: binding a Matching Program and a Text Source
produces a fresh Matcher with the region covering the full text, opaque bounds
(transparentBounds false), anchoring bounds (anchoringBounds true), and no
saved match state (sections 4.2 and 3). -/
def Matcher.bind (prog : Regex) (text : List Char) : Matcher where
  prog := prog
  text := text
  regionStart := 0
  regionLimit := text.length
  transparentBounds := false
  anchoringBounds := true
  matchValid := false
  matchStart := -1
  matchEnd := -1
  groups := []
  hitEnd := false
  stepCallback := none

/-- Modelled from the spec: rebinding the subject text resets the region to
the full new text and clears all saved match state; zero length strings are
permitted and are not an error (header of uregex_setText). -/
def uregex_setText (m : Matcher) (text : List Char) : Matcher × UErrorCode :=
  ({ m with
      text := text
      regionStart := 0
      regionLimit := text.length
      matchValid := false
      matchStart := -1
      matchEnd := -1
      groups := []
      hitEnd := false }, .U_ZERO_ERROR)

/-- Modelled from the spec: refreshing the bound text swaps the text reference
without changing any other aspect of the matching state; the new and previous
texts must have the same content (header of uregex_refreshUText). -/
def uregex_refreshUText (m : Matcher) (text : List Char) : Matcher × UErrorCode :=
  ({ m with text := text }, .U_ZERO_ERROR)

/-- Modelled from the spec: setRegion validates 0 le start le limit le
textLength, failing with a range error otherwise; on success it installs the
region and resets any saved state from the previous match, leaving the
transparency and anchoring flags untouched (section 4.2 and the header of
uregex_setRegion64). -/
def uregex_setRegion64 (m : Matcher) (regionStart regionLimit : Int) :
    Matcher × UErrorCode :=
  if regionStart < 0 ∨ regionLimit < regionStart ∨ (m.text.length : Int) < regionLimit then
    (m, .U_INDEX_OUTOFBOUNDS_ERROR)
  else
    ({ m with
        regionStart := regionStart.toNat
        regionLimit := regionLimit.toNat
        matchValid := false
        matchStart := -1
        matchEnd := -1
        groups := [] }, .U_ZERO_ERROR)

/-- Modelled from the spec: reports the start of the matching region. -/
def uregex_regionStart64 (m : Matcher) : Int × UErrorCode :=
  ((m.regionStart : Int), .U_ZERO_ERROR)

/-- Modelled from the spec: reports the end (exclusive) of the matching
region. -/
def uregex_regionEnd64 (m : Matcher) : Int × UErrorCode :=
  ((m.regionLimit : Int), .U_ZERO_ERROR)

/-- Modelled from the spec: queries the transparency of the region bounds;
opaque bounds are the default. -/
def uregex_hasTransparentBounds (m : Matcher) : Bool × UErrorCode :=
  (m.transparentBounds, .U_ZERO_ERROR)

/-- Modelled from the spec: selects transparent or opaque region bounds. -/
def uregex_useTransparentBounds (m : Matcher) (b : Bool) : Matcher × UErrorCode :=
  ({ m with transparentBounds := b }, .U_ZERO_ERROR)

/-- Modelled from the spec: queries whether anchoring bounds are in use;
anchoring bounds are the default. -/
def uregex_hasAnchoringBounds (m : Matcher) : Bool × UErrorCode :=
  (m.anchoringBounds, .U_ZERO_ERROR)

/-- Modelled from the spec: enables or disables anchoring bounds. -/
def uregex_useAnchoringBounds (m : Matcher) (b : Bool) : Matcher × UErrorCode :=
  ({ m with anchoringBounds := b }, .U_ZERO_ERROR)

/-- Modelled from the spec: reports whether the most recent matching operation
touched the end of the region (header of uregex_hitEnd). -/
def uregex_hitEnd (m : Matcher) : Bool × UErrorCode :=
  (m.hitEnd, .U_ZERO_ERROR)

/-- Modelled from the spec: registers (or clears) the match-step callback. -/
def uregex_setMatchCallback (m : Matcher) (cb : Option (Nat → Bool)) :
    Matcher × UErrorCode :=
  ({ m with stepCallback := cb }, .U_ZERO_ERROR)

/-- Modelled from the spec: retrieves the registered match-step callback. -/
def uregex_getMatchCallback (m : Matcher) : Option (Nat → Bool) × UErrorCode :=
  (m.stepCallback, .U_ZERO_ERROR)

/-- Modelled from the spec: one anchored attempt of the matches operation at
start s with region limit L.  The attempt succeeds only if some backtracking
path consumes the input exactly through the region limit; a proper-prefix
match is not a success.  On success the capture state records the full span;
on failure the match state is cleared.  The hitEnd diagnostic records whether
the attempt advanced its scan cursor to the region limit (section 4.3). -/
def matchAttempt (m : Matcher) (s L : Nat) : Matcher × Bool × UErrorCode :=
  let hit := decide (L ∈ reachSet m.text L m.prog s)
  if L ∈ ends m.text L m.prog s then
    ({ m with
        matchValid := true
        matchStart := (s : Int)
        matchEnd := (L : Int)
        groups := [((s : Int), (L : Int))]
        hitEnd := hit }, true, .U_ZERO_ERROR)
  else
    ({ m with
        matchValid := false
        matchStart := -1
        matchEnd := -1
        groups := []
        hitEnd := hit }, false, .U_ZERO_ERROR)

/-- Modelled from the spec: the matches operation (header of uregex_matches64
and section 4.3).  With startIndex -1 the match must cover the current region;
with startIndex at least 0 any region is reset to the full text, the attempt
is anchored at startIndex and must extend to the end of the text; a start
index outside the text is a range error. -/
def uregex_matches64 (m : Matcher) (startIndex : Int) : Matcher × Bool × UErrorCode :=
  if startIndex = -1 then
    matchAttempt m m.regionStart m.regionLimit
  else if startIndex < 0 ∨ (m.text.length : Int) < startIndex then
    (m, false, .U_INDEX_OUTOFBOUNDS_ERROR)
  else
    matchAttempt { m with regionStart := 0, regionLimit := m.text.length }
      startIndex.toNat m.text.length

/-- Modelled from the spec: one anchored attempt of the lookingAt operation:
success requires only that some backtracking path starting at s succeeds, the
end position being the first one in priority order (section 4.3). -/
def lookingAtAttempt (m : Matcher) (s L : Nat) : Matcher × Bool × UErrorCode :=
  let hit := decide (L ∈ reachSet m.text L m.prog s)
  match (ends m.text L m.prog s).head? with
  | some q =>
      ({ m with
          matchValid := true
          matchStart := (s : Int)
          matchEnd := (q : Int)
          groups := [((s : Int), (q : Int))]
          hitEnd := hit }, true, .U_ZERO_ERROR)
  | none =>
      ({ m with
          matchValid := false
          matchStart := -1
          matchEnd := -1
          groups := []
          hitEnd := hit }, false, .U_ZERO_ERROR)

/-- Modelled from the spec: the lookingAt operation (header of
uregex_lookingAt64): like matches but the match need not extend to the end of
the region; same startIndex dispatch as matches. -/
def uregex_lookingAt64 (m : Matcher) (startIndex : Int) : Matcher × Bool × UErrorCode :=
  if startIndex = -1 then
    lookingAtAttempt m m.regionStart m.regionLimit
  else if startIndex < 0 ∨ (m.text.length : Int) < startIndex then
    (m, false, .U_INDEX_OUTOFBOUNDS_ERROR)
  else
    lookingAtAttempt { m with regionStart := 0, regionLimit := m.text.length }
      startIndex.toNat m.text.length

/-- Modelled from the spec: runs the find loop from search start s and
installs the resulting match state; the hitEnd diagnostic aggregates the
attempts the loop performed (section 4.3). -/
def findRun (m : Matcher) (s : Nat) : Matcher × Bool × UErrorCode :=
  match (findFrom m.text m.regionLimit m.prog s).1 with
  | some (ms, me) =>
      ({ m with
          matchValid := true
          matchStart := (ms : Int)
          matchEnd := (me : Int)
          groups := [((ms : Int), (me : Int))]
          hitEnd := (findFrom m.text m.regionLimit m.prog s).2 }, true, .U_ZERO_ERROR)
  | none =>
      ({ m with
          matchValid := false
          matchStart := -1
          matchEnd := -1
          groups := []
          hitEnd := (findFrom m.text m.regionLimit m.prog s).2 }, false, .U_ZERO_ERROR)

/-- Modelled from the spec: the find operation (header of uregex_find64).
With startIndex at least 0 the region is reset and the search begins there; a
start index outside the text is a range error; with startIndex -1 the search
begins at the start of the current region. -/
def uregex_find64 (m : Matcher) (startIndex : Int) : Matcher × Bool × UErrorCode :=
  if startIndex = -1 then
    findRun m m.regionStart
  else if startIndex < 0 ∨ (m.text.length : Int) < startIndex then
    (m, false, .U_INDEX_OUTOFBOUNDS_ERROR)
  else
    findRun { m with regionStart := 0, regionLimit := m.text.length } startIndex.toNat

/-- Modelled from the spec: the findNext operation (header of uregex_findNext
and section 4.3): the search begins at the end of the previous match, advanced
by one unit when the previous match was zero-length, or at the start of the
region when there is no previous match. -/
def uregex_findNext (m : Matcher) : Matcher × Bool × UErrorCode :=
  let s : Nat :=
    if m.matchValid then
      (if m.matchEnd = m.matchStart then m.matchEnd.toNat + 1 else m.matchEnd.toNat)
    else m.regionStart
  findRun m s

/-- Thread of the backtracking work-stack machine: the sub-programs still to
be matched in sequence, together with the current scan-cursor position. -/
abbrev Thread := List Regex × Nat

/-- Outcome of one run of the step-counted matching machine, each carrying the
number of execution steps performed. -/
inductive RunOutcome where
  | found (pos : Nat) (steps : Nat) : RunOutcome
  | noMatch (steps : Nat) : RunOutcome
  | cancelled (steps : Nat) : RunOutcome
  | fuelOut (steps : Nat) : RunOutcome
deriving DecidableEq, Repr

/-- Number of execution steps an outcome carries. -/
def RunOutcome.steps : RunOutcome → Nat
  | .found _ c => c
  | .noMatch c => c
  | .cancelled c => c
  | .fuelOut c => c

/-- Result of one execution step of the work-stack machine: either the match
attempt accepts at a position, or the machine continues with an updated thread
stack. -/
inductive StepRes where
  | accept (pos : Nat) : StepRes
  | cont (threads : List Thread) : StepRes

/-- Modelled from the spec: one major execution step of the iterative
work-stack backtracking executor (sections 4.3 and 9): the top thread is
advanced by one instruction, pushing backtrack frames for alternation and for
the greedy star choice, popping the top frame on a dead end, and accepting
when a thread has consumed the input exactly through the region limit L. -/
def stepOf (t : List Char) (L : Nat) : Thread → List Thread → StepRes
  | ([], p), rest => if p = L then .accept p else .cont rest
  | (.fail :: _, _), rest => .cont rest
  | (.eps :: k, p), rest => .cont ((k, p) :: rest)
  | (.chr ch :: k, p), rest =>
      if p < L ∧ t[p]? = some ch then .cont ((k, p + 1) :: rest) else .cont rest
  | (.cat r s :: k, p), rest => .cont ((r :: s :: k, p) :: rest)
  | (.alt r s :: k, p), rest => .cont ((r :: k, p) :: (s :: k, p) :: rest)
  | (.star r :: k, p), rest => .cont ((r :: .star r :: k, p) :: (k, p) :: rest)

/-- Modelled from the spec: the step-counted run of the backtracking executor
with a match-step callback (section 4.3).  Before each major execution step
the engine increments the step counter and consults the callback with the
accumulated count; a false return aborts the current match attempt
immediately.  The fuel argument only makes the function total in Lean; the
cancellation bound proved about it is independent of the fuel. -/
def runMatch (cb : Nat → Bool) (t : List Char) (L : Nat) :
    Nat → List Thread → Nat → RunOutcome
  | 0, _, steps => .fuelOut steps
  | _ + 1, [], steps => .noMatch steps
  | fuel + 1, th :: rest, steps =>
      if cb (steps + 1) = false then .cancelled (steps + 1)
      else
        match stepOf t L th rest with
        | .accept p => .found p (steps + 1)
        | .cont threads2 => runMatch cb t L fuel threads2 (steps + 1)

/-- Modelled from the spec: a single match attempt driven by the registered
match-step callback, mapping the machine outcome to the reported result: a
cancelled attempt is reported as no match together with the distinguished
cancellation error, never as an ordinary silent failure (section 4.3). -/
def matchWithCallback (cb : Nat → Bool) (t : List Char) (L : Nat) (r : Regex)
    (s : Nat) (fuel : Nat) : Bool × UErrorCode × Nat :=
  match runMatch cb t L fuel [([r], s)] 0 with
  | .found _ c => (true, .U_ZERO_ERROR, c)
  | .noMatch c => (false, .U_ZERO_ERROR, c)
  | .cancelled c => (false, .U_REGEX_STOPPED_BY_CALLER, c)
  | .fuelOut c => (false, .U_ZERO_ERROR, c)

/-- Shorthand for one-or-more repetition, r+ desugaring to r r*. -/
def Regex.plus (r : Regex) : Regex :=
  .cat r (.star r)

/-- Fixture: the pattern of the named-groups scenario from the spec. -/
def patC6 : String :=
  "(?<year>\\d{4})-(?<month>\\d{2})"

/-- Fixture: the compiled program of the named-groups scenario. -/
def rxC6 : MatchingProgram where
  pattern := patC6
  flags := 0
  groupCount := 2
  groupNames := [("year", 1), ("month", 2)]

/-- Fixture: a matcher for pattern bc* bound to the text abcc with region
[1, 4). -/
def mC1 : Matcher :=
  (uregex_setRegion64 (Matcher.bind (.cat (.chr 'b') (.star (.chr 'c'))) "abcc".data) 1 4).1

/-- Fixture: a matcher for pattern a* on the text aab holding a zero-length
previous match at position 0. -/
def mC2 : Matcher where
  prog := .star (.chr 'a')
  text := "aab".data
  regionStart := 0
  regionLimit := 3
  transparentBounds := false
  anchoringBounds := true
  matchValid := true
  matchStart := 0
  matchEnd := 0
  groups := [(0, 0)]
  hitEnd := false
  stepCallback := none

/-- Fixture: a matcher for the pattern ab on the text ab. -/
def mC7 : Matcher :=
  Matcher.bind (.cat (.chr 'a') (.chr 'b')) "ab".data

/-- Fixture: the catastrophic-backtracking pattern (a+)+b of the cancellation
scenario from the spec. -/
def rxExp : Regex :=
  .cat (Regex.plus (Regex.plus (.chr 'a'))) (.chr 'b')

/-- Fixture: a match-step callback that permits the first 39 steps and
returns false from step 40 on. -/
def cbW : Nat → Bool :=
  fun n => decide (n < 40)

theorem slice_eq_take_drop (t : List Char) (p q : Nat) :
    slice t p q = (t.drop p).take (q - p) := by
  simp [slice, List.drop_take]

theorem slice_self (t : List Char) (p : Nat) : slice t p p = [] := by
  simp [slice_eq_take_drop]

theorem slice_append (t : List Char) {p q z : Nat} (hpq : p ≤ q) (hqz : q ≤ z) :
    slice t p q ++ slice t q z = slice t p z := by
  rw [slice_eq_take_drop, slice_eq_take_drop, slice_eq_take_drop]
  have hz : z - p = (q - p) + (z - q) := by omega
  have hd : t.drop q = (t.drop p).drop (q - p) := by
    rw [List.drop_drop]
    congr 1
    omega
  rw [hz, List.take_add, hd]

theorem length_slice_of_le {t : List Char} {p q : Nat} (hq : q ≤ t.length) (hpq : p ≤ q) :
    (slice t p q).length = q - p := by
  rw [slice_eq_take_drop]
  simp [List.length_drop]
  omega

theorem slice_singleton {t : List Char} {p : Nat} {c : Char} (h : t[p]? = some c) :
    slice t p (p + 1) = [c] := by
  have hp : p < t.length := by
    by_contra hcon
    rw [List.getElem?_eq_none (by omega)] at h
    exact Option.noConfusion h
  rw [slice_eq_take_drop]
  have h1 : p + 1 - p = 1 := by omega
  rw [h1, List.take_one_drop_eq_of_lt_length hp]
  rw [List.getElem?_eq_getElem hp] at h
  simp at h
  simp [List.get_eq_getElem, h]

theorem slice_split {t : List Char} {p q : Nat} (hq : q ≤ t.length) (hpq : p ≤ q)
    {u v : List Char} (h : slice t p q = u ++ v) :
    p + u.length ≤ q ∧ slice t p (p + u.length) = u ∧ slice t (p + u.length) q = v := by
  have hlen : (slice t p q).length = q - p := length_slice_of_le hq hpq
  rw [h] at hlen
  simp at hlen
  have hn : u.length ≤ q - p := by omega
  refine ⟨by omega, ?_, ?_⟩
  · rw [slice_eq_take_drop]
    have h1 : p + u.length - p = u.length := by omega
    rw [h1]
    have h2 : (t.drop p).take u.length = ((t.drop p).take (q - p)).take u.length := by
      rw [List.take_take, min_eq_left hn]
    rw [h2, ← slice_eq_take_drop, h, List.take_left]
  · rw [slice_eq_take_drop]
    have h1 : (t.drop (p + u.length)) = (t.drop p).drop u.length := by
      rw [List.drop_drop]
    have h2 : q - (p + u.length) = (q - p) - u.length := by omega
    rw [h1, h2, ← List.drop_take, ← slice_eq_take_drop, h, List.drop_left]

theorem rmatch_fail_elim {w : List Char} (h : RMatch .fail w) : False := by
  cases h

theorem rmatch_eps_elim {w : List Char} (h : RMatch .eps w) : w = [] := by
  cases h
  rfl

theorem rmatch_chr_elim {c : Char} {w : List Char} (h : RMatch (.chr c) w) : w = [c] := by
  cases h
  rfl

theorem rmatch_cat_elim {r s : Regex} {w : List Char} (h : RMatch (.cat r s) w) :
    ∃ u v, w = u ++ v ∧ RMatch r u ∧ RMatch s v := by
  cases h with
  | cat h1 h2 => exact ⟨_, _, rfl, h1, h2⟩

theorem rmatch_alt_elim {r s : Regex} {w : List Char} (h : RMatch (.alt r s) w) :
    RMatch r w ∨ RMatch s w := by
  cases h with
  | altL h1 => exact Or.inl h1
  | altR h1 => exact Or.inr h1

theorem rmatch_star_elim_aux {e : Regex} {w : List Char} (h : RMatch e w) :
    ∀ r : Regex, e = .star r →
      w = [] ∨ ∃ u v, u ≠ [] ∧ w = u ++ v ∧ RMatch r u ∧ RMatch (.star r) v := by
  induction h with
  | eps => intro r he; exact Regex.noConfusion he
  | chr c => intro r he; exact Regex.noConfusion he
  | cat h1 h2 ih1 ih2 => intro r he; exact Regex.noConfusion he
  | altL h1 ih1 => intro r he; exact Regex.noConfusion he
  | altR h1 ih1 => intro r he; exact Regex.noConfusion he
  | starNil => intro r he; exact Or.inl rfl
  | starCons h1 h2 ih1 ih2 =>
      rename_i r0 u v
      intro r he
      obtain rfl : r0 = r := Regex.star.inj he
      by_cases hu : u = []
      · subst hu
        simpa using ih2 r0 rfl
      · exact Or.inr ⟨u, v, hu, rfl, h1, h2⟩

theorem rmatch_star_elim {r : Regex} {w : List Char} (h : RMatch (.star r) w) :
    w = [] ∨ ∃ u v, u ≠ [] ∧ w = u ++ v ∧ RMatch r u ∧ RMatch (.star r) v :=
  rmatch_star_elim_aux h r rfl

theorem getElem?_of_slice_singleton {t : List Char} {p : Nat} {c : Char}
    (h : slice t p (p + 1) = [c]) : t[p]? = some c := by
  rw [slice_eq_take_drop] at h
  have h1 : p + 1 - p = 1 := by omega
  rw [h1] at h
  have hp : p < t.length := by
    by_contra hcon
    rw [List.drop_eq_nil_of_le (by omega)] at h
    simp at h
  rw [List.take_one_drop_eq_of_lt_length hp] at h
  simp at h
  rw [List.getElem?_eq_getElem hp]
  simpa using h

/-- Characterisation of the engine search: a position q is an end position of a
match attempt of r anchored at p within the region limit L exactly when the
pattern declaratively matches the substring of the text between p and q. -/
theorem mem_ends_iff {t : List Char} {L : Nat} (hL : L ≤ t.length) :
    ∀ (r : Regex) (p : Nat), p ≤ L →
      ∀ (q : Nat), (q ∈ ends t L r p ↔ (p ≤ q ∧ q ≤ L ∧ RMatch r (slice t p q))) := by
  intro r p
  induction r, p using ends.induct t L with
  | case1 p =>
    intro hp q
    simp only [ends]
    constructor
    · intro hmem; simp at hmem
    · rintro ⟨-, -, hm⟩; exact absurd hm (fun hm => rmatch_fail_elim hm)
  | case2 p =>
    intro hp q
    simp only [ends, List.mem_singleton]
    constructor
    · rintro rfl
      exact ⟨le_refl _, hp, slice_self t q ▸ RMatch.eps⟩
    · rintro ⟨hpq, hqL, hm⟩
      have hlen : (slice t p q).length = q - p :=
        length_slice_of_le (le_trans hqL hL) hpq
      rw [rmatch_eps_elim hm] at hlen
      simp at hlen
      omega
  | case3 c p hcond =>
    intro hp q
    simp only [ends, if_pos hcond, List.mem_singleton]
    obtain ⟨hpL, hget⟩ := hcond
    constructor
    · rintro rfl
      exact ⟨by omega, by omega, slice_singleton hget ▸ RMatch.chr c⟩
    · rintro ⟨hpq, hqL, hm⟩
      have hlen : (slice t p q).length = q - p :=
        length_slice_of_le (le_trans hqL hL) hpq
      rw [rmatch_chr_elim hm] at hlen
      simp at hlen
      omega
  | case4 c p hcond =>
    intro hp q
    simp only [ends, if_neg hcond]
    constructor
    · intro hmem; simp at hmem
    · rintro ⟨hpq, hqL, hm⟩
      have hlen : (slice t p q).length = q - p :=
        length_slice_of_le (le_trans hqL hL) hpq
      have hsl := rmatch_chr_elim hm
      rw [hsl] at hlen
      simp at hlen
      have hq1 : q = p + 1 := by omega
      subst hq1
      exact (hcond ⟨by omega, getElem?_of_slice_singleton hsl⟩).elim
  | case5 r s p ih1 ih2 =>
    intro hp q
    simp only [ends, List.mem_flatMap]
    constructor
    · rintro ⟨q1, hq1, hq⟩
      obtain ⟨hpq1, hq1L, hm1⟩ := (ih1 hp q1).mp hq1
      obtain ⟨hq1q, hqL, hm2⟩ := (ih2 q1 hq1L q).mp hq
      refine ⟨by omega, hqL, ?_⟩
      rw [← slice_append t hpq1 hq1q]
      exact RMatch.cat hm1 hm2
    · rintro ⟨hpq, hqL, hm⟩
      obtain ⟨u, v, hsl, h1, h2⟩ := rmatch_cat_elim hm
      obtain ⟨hq1q, hu, hv⟩ := slice_split (le_trans hqL hL) hpq hsl
      refine ⟨p + u.length, (ih1 hp (p + u.length)).mpr
        ⟨by omega, by omega, by rw [hu]; exact h1⟩, ?_⟩
      exact (ih2 (p + u.length) (by omega) q).mpr
        ⟨hq1q, hqL, by rw [hv]; exact h2⟩
  | case6 r s p ih1 ih2 =>
    intro hp q
    simp only [ends, List.mem_append]
    constructor
    · rintro (hq | hq)
      · obtain ⟨h1, h2, h3⟩ := (ih1 hp q).mp hq
        exact ⟨h1, h2, RMatch.altL h3⟩
      · obtain ⟨h1, h2, h3⟩ := (ih2 hp q).mp hq
        exact ⟨h1, h2, RMatch.altR h3⟩
    · rintro ⟨hpq, hqL, hm⟩
      cases rmatch_alt_elim hm with
      | inl h1 => exact Or.inl ((ih1 hp q).mpr ⟨hpq, hqL, h1⟩)
      | inr h1 => exact Or.inr ((ih2 hp q).mpr ⟨hpq, hqL, h1⟩)
  | case7 r p ih1 ih2 =>
    intro hp q
    rw [ends]
    simp only [List.mem_append, List.mem_flatMap, List.mem_singleton]
    constructor
    · rintro (⟨q1, hq1, hq⟩ | rfl)
      · split at hq
        · rename_i hcond
          obtain ⟨hpq1, hq1L, hm1⟩ := (ih1 hp q1).mp hq1
          obtain ⟨hq1q, hqL, hm2⟩ := (ih2 q1 hcond hcond.2 q).mp hq
          refine ⟨by omega, hqL, ?_⟩
          rw [← slice_append t hpq1 hq1q]
          exact RMatch.starCons hm1 hm2
        · simp at hq
      · exact ⟨le_refl _, hp, slice_self t q ▸ RMatch.starNil⟩
    · rintro ⟨hpq, hqL, hm⟩
      cases rmatch_star_elim hm with
      | inl hnil =>
        have hlen : (slice t p q).length = q - p :=
          length_slice_of_le (le_trans hqL hL) hpq
        rw [hnil] at hlen
        simp at hlen
        have : q = p := by omega
        exact Or.inr this
      | inr hdec =>
        obtain ⟨u, v, hune, hsl, h1, h2⟩ := hdec
        obtain ⟨hq1q, hu, hv⟩ := slice_split (le_trans hqL hL) hpq hsl
        have hupos : 0 < u.length := List.length_pos.mpr hune
        refine Or.inl ⟨p + u.length, (ih1 hp (p + u.length)).mpr
          ⟨by omega, by omega, by rw [hu]; exact h1⟩, ?_⟩
        rw [if_pos (by omega : p < p + u.length ∧ p + u.length ≤ L)]
        exact (ih2 (p + u.length) ⟨by omega, by omega⟩ (by omega) q).mpr
          ⟨hq1q, hqL, by rw [hv]; exact h2⟩

theorem ends_bounds {t : List Char} {L : Nat} :
    ∀ (r : Regex) (p : Nat), p ≤ L → ∀ q ∈ ends t L r p, p ≤ q ∧ q ≤ L := by
  intro r p
  induction r, p using ends.induct t L with
  | case1 p =>
    intro hp q hq
    simp [ends] at hq
  | case2 p =>
    intro hp q hq
    simp [ends] at hq
    omega
  | case3 c p hcond =>
    intro hp q hq
    rw [ends, if_pos hcond] at hq
    simp at hq
    omega
  | case4 c p hcond =>
    intro hp q hq
    rw [ends, if_neg hcond] at hq
    simp at hq
  | case5 r s p ih1 ih2 =>
    intro hp q hq
    rw [ends] at hq
    simp only [List.mem_flatMap] at hq
    obtain ⟨q1, hq1, hq⟩ := hq
    obtain ⟨h1, h2⟩ := ih1 hp q1 hq1
    obtain ⟨h3, h4⟩ := ih2 q1 h2 q hq
    omega
  | case6 r s p ih1 ih2 =>
    intro hp q hq
    rw [ends] at hq
    simp only [List.mem_append] at hq
    cases hq with
    | inl h => exact ih1 hp q h
    | inr h => exact ih2 hp q h
  | case7 r p ih1 ih2 =>
    intro hp q hq
    rw [ends] at hq
    simp only [List.mem_append, List.mem_flatMap, List.mem_singleton] at hq
    cases hq with
    | inl h =>
      obtain ⟨q1, hq1, hq⟩ := h
      split at hq
      · rename_i hcond
        obtain ⟨h3, h4⟩ := ih2 q1 hcond hcond.2 q hq
        omega
      · simp at hq
    | inr h => omega

theorem reachSet_bounds {t : List Char} {L : Nat} :
    ∀ (r : Regex) (p : Nat), p ≤ L → ∀ x ∈ reachSet t L r p, x ≤ L := by
  intro r p
  induction r, p using reachSet.induct t L with
  | case1 p =>
    intro hp x hx
    simp [reachSet] at hx
    omega
  | case2 p =>
    intro hp x hx
    simp [reachSet] at hx
    omega
  | case3 c p hcond =>
    intro hp x hx
    rw [reachSet, if_pos hcond] at hx
    simp at hx
    omega
  | case4 c p hcond =>
    intro hp x hx
    rw [reachSet, if_neg hcond] at hx
    simp at hx
    omega
  | case5 r s p ih1 ih2 =>
    intro hp x hx
    rw [reachSet] at hx
    simp only [List.mem_append, List.mem_flatMap] at hx
    cases hx with
    | inl h => exact ih1 hp x h
    | inr h =>
      obtain ⟨q, hq, hx⟩ := h
      exact ih2 q (ends_bounds r p hp q hq).2 x hx
  | case6 r s p ih1 ih2 =>
    intro hp x hx
    rw [reachSet] at hx
    simp only [List.mem_append] at hx
    cases hx with
    | inl h => exact ih1 hp x h
    | inr h => exact ih2 hp x h
  | case7 r p ih1 ih2 =>
    intro hp x hx
    rw [reachSet] at hx
    simp only [List.mem_append, List.mem_flatMap] at hx
    cases hx with
    | inl h => exact ih1 hp x h
    | inr h =>
      obtain ⟨q, hq, hx⟩ := h
      split at hx
      · rename_i hcond
        exact ih2 q hcond hcond.2 x hx
      · simp at hx

theorem self_mem_reachSet {t : List Char} {L : Nat} :
    ∀ (r : Regex) (p : Nat), p ∈ reachSet t L r p := by
  intro r p
  induction r, p using reachSet.induct t L with
  | case1 p => simp [reachSet]
  | case2 p => simp [reachSet]
  | case3 c p hcond => rw [reachSet, if_pos hcond]; simp
  | case4 c p hcond => rw [reachSet, if_neg hcond]; simp
  | case5 r s p ih1 ih2 => rw [reachSet]; simp only [List.mem_append]; exact Or.inl ih1
  | case6 r s p ih1 ih2 => rw [reachSet]; simp only [List.mem_append]; exact Or.inl ih1
  | case7 r p ih1 ih2 => rw [reachSet]; simp only [List.mem_append]; exact Or.inl ih1

theorem ends_subset_reachSet {t : List Char} {L : Nat} :
    ∀ (r : Regex) (p : Nat), ∀ q ∈ ends t L r p, q ∈ reachSet t L r p := by
  intro r p
  induction r, p using ends.induct t L with
  | case1 p =>
    intro q hq
    simp [ends] at hq
  | case2 p =>
    intro q hq
    simp [ends] at hq
    simp [reachSet, hq]
  | case3 c p hcond =>
    intro q hq
    rw [ends, if_pos hcond] at hq
    rw [reachSet, if_pos hcond]
    simp at hq
    simp [hq]
  | case4 c p hcond =>
    intro q hq
    rw [ends, if_neg hcond] at hq
    simp at hq
  | case5 r s p ih1 ih2 =>
    intro q hq
    rw [ends] at hq
    rw [reachSet]
    simp only [List.mem_flatMap] at hq
    simp only [List.mem_append, List.mem_flatMap]
    obtain ⟨q1, hq1, hq⟩ := hq
    exact Or.inr ⟨q1, hq1, ih2 q1 q hq⟩
  | case6 r s p ih1 ih2 =>
    intro q hq
    rw [ends] at hq
    rw [reachSet]
    simp only [List.mem_append] at hq ⊢
    cases hq with
    | inl h => exact Or.inl (ih1 q h)
    | inr h => exact Or.inr (ih2 q h)
  | case7 r p ih1 ih2 =>
    intro q hq
    rw [ends] at hq
    rw [reachSet]
    simp only [List.mem_append, List.mem_flatMap, List.mem_singleton] at hq
    simp only [List.mem_append, List.mem_flatMap]
    cases hq with
    | inl h =>
      obtain ⟨q1, hq1, hq⟩ := h
      split at hq
      · rename_i hcond
        refine Or.inr ⟨q1, hq1, ?_⟩
        rw [if_pos hcond]
        exact ih2 q1 hcond q hq
      · simp at hq
    | inr h =>
      subst h
      exact Or.inl (self_mem_reachSet r q)

theorem head?_mem {α : Type} {l : List α} {a : α} (h : l.head? = some a) : a ∈ l := by
  cases l with
  | nil => simp at h
  | cons b bs =>
    simp at h
    simp [h]

theorem findFrom_some {t : List Char} {L : Nat} {r : Regex} :
    ∀ (p : Nat) {ms me : Nat}, (findFrom t L r p).1 = some (ms, me) →
      p ≤ ms ∧ ms ≤ L ∧ (ends t L r ms).head? = some me := by
  intro p
  induction p using findFrom.induct t L r with
  | case1 p hp q hq =>
    intro ms me hsome
    rw [findFrom, dif_pos hp, hq] at hsome
    simp at hsome
    obtain ⟨rfl, rfl⟩ := hsome
    exact ⟨le_refl _, hp, hq⟩
  | case2 p hp hq ih =>
    intro ms me hsome
    rw [findFrom, dif_pos hp, hq] at hsome
    simp at hsome
    obtain ⟨h1, h2, h3⟩ := ih hsome
    exact ⟨by omega, h2, h3⟩
  | case3 p hp =>
    intro ms me hsome
    rw [findFrom, dif_neg hp] at hsome
    simp at hsome

theorem findFrom_some_bounds {t : List Char} {L : Nat} {r : Regex} {p ms me : Nat}
    (h : (findFrom t L r p).1 = some (ms, me)) :
    p ≤ ms ∧ ms ≤ me ∧ me ≤ L := by
  obtain ⟨h1, h2, h3⟩ := findFrom_some p h
  obtain ⟨h4, h5⟩ := ends_bounds r ms h2 me (head?_mem h3)
  exact ⟨h1, h4, h5⟩

theorem findAllFromAux_mem {t : List Char} {L : Nat} {r : Regex} :
    ∀ (fuel p : Nat), ∀ x ∈ findAllFromAux t L r fuel p, p ≤ x.1 ∧ x.1 ≤ x.2 ∧ x.2 ≤ L := by
  intro fuel
  induction fuel with
  | zero =>
    intro p x hx
    simp [findAllFromAux] at hx
  | succ fuel ih =>
    intro p x hx
    rw [findAllFromAux] at hx
    cases hm : (findFrom t L r p).1 with
    | none => rw [hm] at hx; simp at hx
    | some pr =>
      obtain ⟨ms, me⟩ := pr
      rw [hm] at hx
      obtain ⟨h1, h2, h3⟩ := findFrom_some_bounds hm
      simp only [List.mem_cons] at hx
      cases hx with
      | inl hx => subst hx; exact ⟨h1, h2, h3⟩
      | inr hx =>
        obtain ⟨h4, h5, h6⟩ := ih _ x hx
        constructor
        · split at h4 <;> omega
        · exact ⟨h5, h6⟩

theorem findAllFromAux_chain {t : List Char} {L : Nat} {r : Regex} :
    ∀ (fuel p : Nat), List.Chain' (fun a b : Nat × Nat => a.2 ≤ b.1 ∧ a.1 < b.1)
      (findAllFromAux t L r fuel p) := by
  intro fuel
  induction fuel with
  | zero =>
    intro p
    rw [findAllFromAux]
    exact List.chain'_nil
  | succ fuel ih =>
    intro p
    rw [findAllFromAux]
    cases hm : (findFrom t L r p).1 with
    | none => exact List.chain'_nil
    | some pr =>
      obtain ⟨ms, me⟩ := pr
      rw [List.chain'_cons']
      refine ⟨?_, ih _⟩
      intro y hy
      have hmem := head?_mem hy
      obtain ⟨h4, h5, h6⟩ := findAllFromAux_mem fuel _ y hmem
      obtain ⟨h1, h2, h3⟩ := findFrom_some_bounds hm
      constructor
      · split at h4 <;> omega
      · split at h4 <;> omega

theorem findAllFrom_chain {t : List Char} {L : Nat} {r : Regex} (p : Nat) :
    List.Chain' (fun a b : Nat × Nat => a.2 ≤ b.1 ∧ a.1 < b.1)
      (findAllFrom t L r p) :=
  findAllFromAux_chain (L + 1 - p) p

theorem findFrom_hit {t : List Char} {L : Nat} {r : Regex} :
    ∀ (p : Nat), (findFrom t L r p).2 = true ↔
      ∃ a, p ≤ a ∧ a ≤ L ∧ (∀ b, p ≤ b → b < a → ends t L r b = []) ∧
        L ∈ reachSet t L r a := by
  intro p
  induction p using findFrom.induct t L r with
  | case1 p hp q hq =>
    rw [findFrom, dif_pos hp, hq]
    simp only [decide_eq_true_eq]
    constructor
    · intro hreach
      exact ⟨p, le_refl _, hp, fun b hb1 hb2 => absurd (lt_of_lt_of_le hb2 hb1) (by omega), hreach⟩
    · rintro ⟨a, hpa, haL, hprev, hreach⟩
      rcases Nat.eq_or_lt_of_le hpa with rfl | hlt
      · exact hreach
      · have := hprev p (le_refl _) hlt
        rw [this] at hq
        simp at hq
  | case2 p hp hq ih =>
    rw [findFrom, dif_pos hp, hq]
    have hempty : ends t L r p = [] := by
      cases hends : ends t L r p with
      | nil => rfl
      | cons x xs => rw [hends] at hq; simp at hq
    simp only [Bool.or_eq_true, decide_eq_true_eq]
    constructor
    · rintro (hreach | hrest)
      · exact ⟨p, le_refl _, hp, fun b hb1 hb2 => absurd (lt_of_lt_of_le hb2 hb1) (by omega), hreach⟩
      · obtain ⟨a, hpa, haL, hprev, hreach⟩ := ih.mp hrest
        refine ⟨a, by omega, haL, ?_, hreach⟩
        intro b hb1 hb2
        rcases Nat.eq_or_lt_of_le hb1 with rfl | hblt
        · exact hempty
        · exact hprev b (by omega) hb2
    · rintro ⟨a, hpa, haL, hprev, hreach⟩
      rcases Nat.eq_or_lt_of_le hpa with rfl | hlt
      · exact Or.inl hreach
      · refine Or.inr (ih.mpr ⟨a, by omega, haL, ?_, hreach⟩)
        intro b hb1 hb2
        exact hprev b (by omega) hb2
  | case3 p hp =>
    rw [findFrom, dif_neg hp]
    simp only [Bool.false_eq_true, false_iff]
    rintro ⟨a, hpa, haL, -, -⟩
    omega

theorem lookup_none_of_not_mem {names : List (String × Nat)} {name : String}
    (h : ∀ n, (name, n) ∉ names) : names.lookup name = none := by
  induction names with
  | nil => rfl
  | cons x xs ih =>
    obtain ⟨k, v⟩ := x
    rw [List.lookup]
    by_cases hk : name = k
    · subst hk
      exact absurd (List.mem_cons_self _ _) (h v)
    · have hbe : (name == k) = false := by simpa using hk
      simp only [List.lookup, hbe]
      exact ih (fun n hn => h n (List.mem_cons_of_mem _ hn))

theorem runMatch_steps_le {cb : Nat → Bool} {N : Nat}
    (hN : ∀ n, N ≤ n → cb n = false) (t : List Char) (L : Nat) :
    ∀ (fuel : Nat) (threads : List Thread) (steps : Nat),
      (runMatch cb t L fuel threads steps).steps ≤ max (steps + 1) N := by
  intro fuel
  induction fuel with
  | zero =>
    intro threads steps
    rw [runMatch]
    simp only [RunOutcome.steps]
    omega
  | succ fuel ih =>
    intro threads steps
    match threads with
    | [] =>
      rw [runMatch]
      simp only [RunOutcome.steps]
      omega
    | th :: rest =>
      rw [runMatch]
      by_cases hcb : cb (steps + 1) = false
      · rw [if_pos hcb]
        simp only [RunOutcome.steps]
        omega
      · rw [if_neg hcb]
        have hlt : steps + 1 < N := by
          by_contra hge
          exact hcb (hN (steps + 1) (by omega))
        cases hstep : stepOf t L th rest with
        | accept p =>
          simp only [RunOutcome.steps]
          omega
        | cont threads2 =>
          have h2 := ih threads2 (steps + 1)
          simp only [RunOutcome.steps] at h2 ⊢
          omega

theorem runMatch_cancelled_cb {cb : Nat → Bool} (t : List Char) (L : Nat) :
    ∀ (fuel : Nat) (threads : List Thread) (steps c : Nat),
      runMatch cb t L fuel threads steps = .cancelled c → cb c = false := by
  intro fuel
  induction fuel with
  | zero =>
    intro threads steps c h
    rw [runMatch] at h
    exact RunOutcome.noConfusion h
  | succ fuel ih =>
    intro threads steps c h
    match threads with
    | [] =>
      rw [runMatch] at h
      exact RunOutcome.noConfusion h
    | th :: rest =>
      rw [runMatch] at h
      by_cases hcb : cb (steps + 1) = false
      · rw [if_pos hcb] at h
        obtain rfl : steps + 1 = c := RunOutcome.cancelled.inj h
        exact hcb
      · rw [if_neg hcb] at h
        cases hstep : stepOf t L th rest with
        | accept p =>
          rw [hstep] at h
          exact RunOutcome.noConfusion h
        | cont threads2 =>
          rw [hstep] at h
          exact ih threads2 (steps + 1) c h


theorem matchAttempt_success_iff (m : Matcher) (s L : Nat) :
    ((matchAttempt m s L).2.1 = true) ↔ L ∈ ends m.text L m.prog s := by
  unfold matchAttempt
  by_cases hmem : L ∈ ends m.text L m.prog s
  · simp [hmem]
  · simp [hmem]

theorem matchAttempt_hitEnd (m : Matcher) (s L : Nat) :
    (matchAttempt m s L).1.hitEnd = decide (L ∈ reachSet m.text L m.prog s) := by
  unfold matchAttempt
  by_cases hmem : L ∈ ends m.text L m.prog s
  · simp [hmem]
  · simp [hmem]

theorem lookingAtAttempt_success_iff (m : Matcher) (s L : Nat) :
    ((lookingAtAttempt m s L).2.1 = true) ↔ ends m.text L m.prog s ≠ [] := by
  unfold lookingAtAttempt
  cases h : (ends m.text L m.prog s).head? with
  | none =>
    simp
    exact List.head?_eq_none_iff.mp h
  | some q =>
    simp
    intro hnil
    rw [hnil] at h
    simp at h

theorem lookingAtAttempt_hitEnd (m : Matcher) (s L : Nat) :
    (lookingAtAttempt m s L).1.hitEnd = decide (L ∈ reachSet m.text L m.prog s) := by
  unfold lookingAtAttempt
  cases h : (ends m.text L m.prog s).head? with
  | none => simp
  | some q => simp

theorem findRun_success_iff (m : Matcher) (s : Nat) :
    ((findRun m s).2.1 = true) ↔ (findFrom m.text m.regionLimit m.prog s).1 ≠ none := by
  unfold findRun
  cases hf : (findFrom m.text m.regionLimit m.prog s).1 with
  | none => simp
  | some pr =>
    obtain ⟨ms, me⟩ := pr
    simp

theorem findRun_hitEnd (m : Matcher) (s : Nat) :
    (findRun m s).1.hitEnd = (findFrom m.text m.regionLimit m.prog s).2 := by
  unfold findRun
  cases hf : (findFrom m.text m.regionLimit m.prog s).1 with
  | none => simp
  | some pr =>
    obtain ⟨ms, me⟩ := pr
    simp

theorem findRun_success {m : Matcher} {s : Nat} (h : (findRun m s).2.1 = true) :
    ∃ ms2 me2 : Nat, (findRun m s).1.matchStart = (ms2 : Int) ∧
      (findRun m s).1.matchEnd = (me2 : Int) ∧
      s ≤ ms2 ∧ ms2 ≤ me2 ∧ me2 ≤ m.regionLimit := by
  have hne : (findFrom m.text m.regionLimit m.prog s).1 ≠ none :=
    (findRun_success_iff m s).mp h
  cases hf : (findFrom m.text m.regionLimit m.prog s).1 with
  | none => exact absurd hf hne
  | some pr =>
    obtain ⟨ms2, me2⟩ := pr
    obtain ⟨h1, h2, h3⟩ :=
      @findFrom_some_bounds m.text m.regionLimit m.prog s ms2 me2 hf
    refine ⟨ms2, me2, ?_, ?_, h1, h2, h3⟩
    · unfold findRun
      rw [hf]
    · unfold findRun
      rw [hf]

theorem findFrom_none_iff {t : List Char} {L : Nat} {r : Regex} :
    ∀ (p : Nat), (findFrom t L r p).1 = none ↔
      (∀ a, p ≤ a → a ≤ L → ends t L r a = []) := by
  intro p
  induction p using findFrom.induct t L r with
  | case1 p hp q hq =>
    rw [findFrom, dif_pos hp, hq]
    constructor
    · intro h
      simp at h
    · intro hall
      have h0 := hall p (le_refl p) hp
      rw [h0] at hq
      simp at hq
  | case2 p hp hq ih =>
    rw [findFrom, dif_pos hp, hq]
    have hends : ends t L r p = [] := List.head?_eq_none_iff.mp hq
    simp only []
    rw [ih]
    constructor
    · intro hall a ha1 ha2
      rcases Nat.eq_or_lt_of_le ha1 with rfl | hlt
      · exact hends
      · exact hall a (by omega) ha2
    · intro hall a ha1 ha2
      exact hall a (by omega) ha2
  | case3 p hp =>
    rw [findFrom, dif_neg hp]
    constructor
    · intro h a ha1 ha2
      exact absurd (le_trans ha1 ha2) hp
    · intro hall
      rfl

/-- C1: calling matches with startIndex -1 on a matcher whose current region
is [s, e) returns true exactly when the pattern matches the entire substring
of the text from s to e; the match must reach exactly the end of the region,
so a proper-prefix match does not count as success. -/
theorem uregex_matches64_region_spec (m : Matcher)
    (hws : m.regionStart ≤ m.regionLimit) (hwl : m.regionLimit ≤ m.text.length) :
    ((uregex_matches64 m (-1)).2.1 = true) ↔
      RMatch m.prog (slice m.text m.regionStart m.regionLimit) := by
  have hdisp : uregex_matches64 m (-1) = matchAttempt m m.regionStart m.regionLimit := by
    unfold uregex_matches64
    rw [if_pos rfl]
  rw [hdisp, matchAttempt_success_iff]
  constructor
  · intro hmem
    exact ((mem_ends_iff hwl m.prog m.regionStart hws m.regionLimit).mp hmem).2.2
  · intro hrm
    exact (mem_ends_iff hwl m.prog m.regionStart hws m.regionLimit).mpr
      ⟨hws, le_refl _, hrm⟩

/-- Witness for C1: the concrete matcher mC1 (pattern bc*, text abcc, region
[1, 4)) satisfies the region invariant, and the theorem applies to it. -/
theorem uregex_matches64_region_spec_witness :
    ((uregex_matches64 mC1 (-1)).2.1 = true) ↔
      RMatch mC1.prog (slice mC1.text mC1.regionStart mC1.regionLimit) :=
  uregex_matches64_region_spec mC1 (by decide) (by decide)

/-- C2: a successful findNext starts at or after the end of the previous
match and strictly after its start (advancing at least one unit when the
previous match was zero-length), and consequently the whole sequence of
matches produced by findFirst followed by repeated findNext is non-overlapping
with strictly increasing start positions. -/
theorem uregex_findNext_progress_spec (m : Matcher) (ms me : Nat)
    (hv : m.matchValid = true) (hs : m.matchStart = (ms : Int))
    (he : m.matchEnd = (me : Int)) (hle : ms ≤ me) :
    ((uregex_findNext m).2.1 = true →
      ((me : Int) ≤ (uregex_findNext m).1.matchStart ∧
       (ms : Int) < (uregex_findNext m).1.matchStart ∧
       (uregex_findNext m).1.matchStart ≤ (uregex_findNext m).1.matchEnd)) ∧
    List.Chain' (fun a b : Nat × Nat => a.2 ≤ b.1 ∧ a.1 < b.1)
      (findAllFrom m.text m.regionLimit m.prog m.regionStart) := by
  refine ⟨?_, findAllFrom_chain m.regionStart⟩
  intro hsucc
  have hnext : uregex_findNext m =
      findRun m (if m.matchEnd = m.matchStart then m.matchEnd.toNat + 1
        else m.matchEnd.toNat) := by
    unfold uregex_findNext
    rw [hv]
    simp
  rw [hnext] at hsucc
  obtain ⟨ms2, me2, h1, h2, h3, h4, h5⟩ := findRun_success hsucc
  rw [hnext, h1, h2]
  rw [he, hs] at h3
  have hcond : ((me : Int) = (ms : Int)) ↔ me = ms := Nat.cast_inj
  by_cases heq : me = ms
  · rw [if_pos (hcond.mpr heq), Int.toNat_natCast] at h3
    refine ⟨?_, ?_, ?_⟩ <;> omega
  · rw [if_neg (fun hc => heq (hcond.mp hc)), Int.toNat_natCast] at h3
    refine ⟨?_, ?_, ?_⟩ <;> omega

/-- Witness for C2: the theorem applies to the concrete matcher mC2 (pattern
a*, text aab) holding a zero-length previous match at position 0. -/
theorem uregex_findNext_progress_spec_witness :
    (((uregex_findNext mC2).2.1 = true →
      ((0 : Int) ≤ (uregex_findNext mC2).1.matchStart ∧
       (0 : Int) < (uregex_findNext mC2).1.matchStart ∧
       (uregex_findNext mC2).1.matchStart ≤ (uregex_findNext mC2).1.matchEnd)) ∧
    List.Chain' (fun a b : Nat × Nat => a.2 ≤ b.1 ∧ a.1 < b.1)
      (findAllFrom mC2.text mC2.regionLimit mC2.prog mC2.regionStart)) :=
  uregex_findNext_progress_spec mC2 0 0 rfl rfl rfl (le_refl 0)


/-- C3: setRegion fails with a range error exactly on the pairs violating
0 le start le limit le textLength; every successful call resets the saved
match state and leaves the transparent-bounds and anchoring-bounds flags
unchanged. -/
theorem uregex_setRegion64_spec (m : Matcher) (start limit : Int) :
    ((uregex_setRegion64 m start limit).2 = .U_INDEX_OUTOFBOUNDS_ERROR ↔
      ¬ (0 ≤ start ∧ start ≤ limit ∧ limit ≤ (m.text.length : Int))) ∧
    ((uregex_setRegion64 m start limit).2 = .U_ZERO_ERROR →
      ((uregex_setRegion64 m start limit).1.matchValid = false ∧
       (uregex_setRegion64 m start limit).1.matchStart = -1 ∧
       (uregex_setRegion64 m start limit).1.matchEnd = -1 ∧
       (uregex_setRegion64 m start limit).1.groups = [] ∧
       (uregex_setRegion64 m start limit).1.transparentBounds = m.transparentBounds ∧
       (uregex_setRegion64 m start limit).1.anchoringBounds = m.anchoringBounds)) := by
  unfold uregex_setRegion64
  by_cases hc : start < 0 ∨ limit < start ∨ (m.text.length : Int) < limit
  · rw [if_pos hc]
    constructor
    · simp only [Prod.snd]
      simp
      omega
    · intro h
      simp at h
  · rw [if_neg hc]
    constructor
    · simp only [Prod.snd]
      simp
      omega
    · intro h
      exact ⟨rfl, rfl, rfl, rfl, rfl, rfl⟩

/-- Witness for C3: a successful concrete call on mC7 resets the match state
and preserves both bounds flags, via the theorem. -/
theorem uregex_setRegion64_spec_witness :
    (uregex_setRegion64 mC7 0 1).1.matchValid = false ∧
    (uregex_setRegion64 mC7 0 1).1.matchStart = -1 ∧
    (uregex_setRegion64 mC7 0 1).1.matchEnd = -1 ∧
    (uregex_setRegion64 mC7 0 1).1.groups = [] ∧
    (uregex_setRegion64 mC7 0 1).1.transparentBounds = mC7.transparentBounds ∧
    (uregex_setRegion64 mC7 0 1).1.anchoringBounds = mC7.anchoringBounds :=
  (uregex_setRegion64_spec mC7 0 1).2 (by decide)


theorem runMatch_not_cancelled_true {cb : Nat → Bool} (t : List Char) (L : Nat) :
    ∀ (fuel : Nat) (threads : List Thread) (steps : Nat),
      (∀ c, runMatch cb t L fuel threads steps ≠ .cancelled c) →
      ∀ k, steps < k → k ≤ (runMatch cb t L fuel threads steps).steps →
        cb k = true := by
  intro fuel
  induction fuel with
  | zero =>
    intro threads steps hnc k hk1 hk2
    rw [runMatch] at hk2
    simp only [RunOutcome.steps] at hk2
    omega
  | succ fuel ih =>
    intro threads steps hnc k hk1 hk2
    match threads with
    | [] =>
      rw [runMatch] at hk2
      simp only [RunOutcome.steps] at hk2
      omega
    | th :: rest =>
      rw [runMatch] at hnc hk2
      by_cases hcb : cb (steps + 1) = false
      · rw [if_pos hcb] at hnc
        exact absurd rfl (hnc (steps + 1))
      · rw [if_neg hcb] at hnc hk2
        have hcbt : cb (steps + 1) = true := by
          cases h2 : cb (steps + 1) with
          | false => exact absurd h2 hcb
          | true => rfl
        cases hstep : stepOf t L th rest with
        | accept p =>
          rw [hstep] at hk2
          simp only [RunOutcome.steps] at hk2
          have hk : k = steps + 1 := by omega
          rw [hk]
          exact hcbt
        | cont threads2 =>
          rw [hstep] at hnc hk2
          rcases Nat.lt_or_ge (steps + 1) k with hgt | hle
          · exact ih threads2 (steps + 1) hnc k hgt hk2
          · have hk : k = steps + 1 := by omega
            rw [hk]
            exact hcbt

/-- C4: the number of executed steps of a callback-driven attempt is bounded
by the callback's cutoff independently of the pattern, the text and the
available fuel — including patterns with exponential backtracking; whenever
the callback returns false at an invocation the engine actually consulted,
the attempt is reported as no match together with the distinguished
cancellation error, never as a silent ordinary failure; and conversely a
cancellation report implies a no-match result with the callback false at the
abort step.  The cancellation error differs from the ordinary status. -/
theorem uregex_matchCallback_cancellation_spec (m : Matcher) (cb : Nat → Bool)
    (N : Nat) (hN : ∀ n, N ≤ n → cb n = false) :
    ((uregex_setMatchCallback m (some cb)).1.stepCallback = some cb) ∧
    (∀ (t : List Char) (L : Nat) (r : Regex) (s fuel : Nat),
      (matchWithCallback cb t L r s fuel).2.2 ≤ max 1 N ∧
      ((∃ k, 1 ≤ k ∧ k ≤ (matchWithCallback cb t L r s fuel).2.2 ∧ cb k = false) →
        ((matchWithCallback cb t L r s fuel).2.1 = .U_REGEX_STOPPED_BY_CALLER ∧
         (matchWithCallback cb t L r s fuel).1 = false)) ∧
      ((matchWithCallback cb t L r s fuel).2.1 = .U_REGEX_STOPPED_BY_CALLER →
        ((matchWithCallback cb t L r s fuel).1 = false ∧
         cb (matchWithCallback cb t L r s fuel).2.2 = false))) ∧
    UErrorCode.U_REGEX_STOPPED_BY_CALLER ≠ UErrorCode.U_ZERO_ERROR := by
  refine ⟨rfl, ?_, by simp⟩
  intro t L r s fuel
  have hbound := runMatch_steps_le hN t L fuel [([r], s)] 0
  unfold matchWithCallback
  cases hrun : runMatch cb t L fuel [([r], s)] 0 with
  | found pos c =>
    rw [hrun] at hbound
    simp only [RunOutcome.steps] at hbound
    have hb2 : c ≤ max 1 N := by omega
    refine ⟨hb2, ?_, ?_⟩
    · rintro ⟨k, hk1, hk2, hkf⟩
      have hnc : ∀ c2, runMatch cb t L fuel [([r], s)] 0 ≠ .cancelled c2 := by
        intro c2
        rw [hrun]
        simp
      have hkle : k ≤ (runMatch cb t L fuel [([r], s)] 0).steps := by
        rw [hrun]
        exact hk2
      have htrue := runMatch_not_cancelled_true t L fuel [([r], s)] 0 hnc k (by omega) hkle
      rw [htrue] at hkf
      simp at hkf
    · intro hstat
      simp at hstat
  | noMatch c =>
    rw [hrun] at hbound
    simp only [RunOutcome.steps] at hbound
    have hb2 : c ≤ max 1 N := by omega
    refine ⟨hb2, ?_, ?_⟩
    · rintro ⟨k, hk1, hk2, hkf⟩
      have hnc : ∀ c2, runMatch cb t L fuel [([r], s)] 0 ≠ .cancelled c2 := by
        intro c2
        rw [hrun]
        simp
      have hkle : k ≤ (runMatch cb t L fuel [([r], s)] 0).steps := by
        rw [hrun]
        exact hk2
      have htrue := runMatch_not_cancelled_true t L fuel [([r], s)] 0 hnc k (by omega) hkle
      rw [htrue] at hkf
      simp at hkf
    · intro hstat
      simp at hstat
  | cancelled c =>
    rw [hrun] at hbound
    simp only [RunOutcome.steps] at hbound
    have hb2 : c ≤ max 1 N := by omega
    refine ⟨hb2, ?_, ?_⟩
    · intro hex
      exact ⟨rfl, rfl⟩
    · intro hstat
      exact ⟨rfl, runMatch_cancelled_cb t L fuel [([r], s)] 0 c hrun⟩
  | fuelOut c =>
    rw [hrun] at hbound
    simp only [RunOutcome.steps] at hbound
    have hb2 : c ≤ max 1 N := by omega
    refine ⟨hb2, ?_, ?_⟩
    · rintro ⟨k, hk1, hk2, hkf⟩
      have hnc : ∀ c2, runMatch cb t L fuel [([r], s)] 0 ≠ .cancelled c2 := by
        intro c2
        rw [hrun]
        simp
      have hkle : k ≤ (runMatch cb t L fuel [([r], s)] 0).steps := by
        rw [hrun]
        exact hk2
      have htrue := runMatch_not_cancelled_true t L fuel [([r], s)] 0 hnc k (by omega) hkle
      rw [htrue] at hkf
      simp at hkf
    · intro hstat
      simp at hstat

/-- Witness for C4: the exponential pattern (a+)+b against eight characters a
with the cutoff-40 callback is actually reported with the distinguished
cancellation error and a no-match result, within the step bound, via the
theorem. -/
theorem uregex_matchCallback_cancellation_spec_witness :
    (matchWithCallback cbW "aaaaaaaa".data 8 rxExp 0 100).2.1 =
        .U_REGEX_STOPPED_BY_CALLER ∧
    (matchWithCallback cbW "aaaaaaaa".data 8 rxExp 0 100).1 = false ∧
    (matchWithCallback cbW "aaaaaaaa".data 8 rxExp 0 100).2.2 ≤ max 1 40 := by
  have h := (uregex_matchCallback_cancellation_spec
    (Matcher.bind rxExp "aaaaaaaa".data) cbW 40
    (fun n hn => by simp [cbW]; omega)).2.1 "aaaaaaaa".data 8 rxExp 0 100
  refine ⟨?_, ?_, h.1⟩
  · exact (h.2.1 ⟨40, by decide, by decide, by decide⟩).1
  · exact (h.2.1 ⟨40, by decide, by decide, by decide⟩).2

/-- C5: refreshing the bound text swaps only the text reference: the call
succeeds, installs the new text, and leaves the region bounds, the mode and
bounds flags, the match-valid flag, every last-match group start and end
offset, the hitEnd diagnostic and the registered callback unchanged. -/
theorem uregex_refreshUText_frame_spec (m : Matcher) (t2 : List Char) :
    (uregex_refreshUText m t2).2 = .U_ZERO_ERROR ∧
    (uregex_refreshUText m t2).1.text = t2 ∧
    (uregex_refreshUText m t2).1.prog = m.prog ∧
    (uregex_refreshUText m t2).1.regionStart = m.regionStart ∧
    (uregex_refreshUText m t2).1.regionLimit = m.regionLimit ∧
    (uregex_refreshUText m t2).1.transparentBounds = m.transparentBounds ∧
    (uregex_refreshUText m t2).1.anchoringBounds = m.anchoringBounds ∧
    (uregex_refreshUText m t2).1.matchValid = m.matchValid ∧
    (uregex_refreshUText m t2).1.matchStart = m.matchStart ∧
    (uregex_refreshUText m t2).1.matchEnd = m.matchEnd ∧
    (uregex_refreshUText m t2).1.groups = m.groups ∧
    (uregex_refreshUText m t2).1.hitEnd = m.hitEnd ∧
    (uregex_refreshUText m t2).1.stepCallback = m.stepCallback :=
  ⟨rfl, rfl, rfl, rfl, rfl, rfl, rfl, rfl, rfl, rfl, rfl, rfl, rfl⟩

/-- C6: on the pattern of the named-groups scenario the compiler assigns the
numbers in order of first opening-parenthesis occurrence — year is group 1 and
month is group 2 — while the name day, and in general every name that does not
appear in the compiled name table, fails with the unknown-name error. -/
theorem uregex_groupNumberFromName_spec :
    (uregex_open patC6 0 = some rxC6 ∧
      uregex_groupNumberFromName rxC6 "year" = (1, .U_ZERO_ERROR) ∧
      uregex_groupNumberFromName rxC6 "month" = (2, .U_ZERO_ERROR) ∧
      uregex_groupNumberFromName rxC6 "day" =
        (-1, .U_REGEX_INVALID_CAPTURE_GROUP_NAME)) ∧
    (∀ (rx : MatchingProgram) (name : String),
      (∀ n, (name, n) ∉ rx.groupNames) →
      uregex_groupNumberFromName rx name =
        (-1, .U_REGEX_INVALID_CAPTURE_GROUP_NAME)) := by
  constructor
  · refine ⟨?_, ?_, ?_, ?_⟩ <;> decide
  · intro rx name h
    unfold uregex_groupNumberFromName
    rw [lookup_none_of_not_mem h]

/-- Witness for C6: the name day does not appear in the concrete name table of
the compiled scenario pattern, and the lookup fails with the unknown-name
error, via the theorem. -/
theorem uregex_groupNumberFromName_spec_witness :
    uregex_groupNumberFromName rxC6 "day" =
      (-1, .U_REGEX_INVALID_CAPTURE_GROUP_NAME) :=
  uregex_groupNumberFromName_spec.2 rxC6 "day"
    (fun n hn => by simp [rxC6] at hn)


/-- C7: after a match operation the hitEnd query returns true exactly when
some attempt performed during that operation advanced its scan cursor to the
region limit: for matches and lookingAt this is the single anchored attempt at
the region start; for the find family it is some attempt at a candidate index
the loop actually reached, every earlier candidate having failed; find and
findNext are the find loop run from the region start, respectively from the
end of the previous match advanced past a zero-length match. -/
theorem uregex_hitEnd_spec (m : Matcher) :
    ((uregex_hitEnd (uregex_matches64 m (-1)).1).1 = true ↔
      m.regionLimit ∈ reachSet m.text m.regionLimit m.prog m.regionStart) ∧
    ((uregex_hitEnd (uregex_lookingAt64 m (-1)).1).1 = true ↔
      m.regionLimit ∈ reachSet m.text m.regionLimit m.prog m.regionStart) ∧
    (∀ s : Nat, (uregex_hitEnd (findRun m s).1).1 = true ↔
      ∃ a, s ≤ a ∧ a ≤ m.regionLimit ∧
        (∀ b, s ≤ b → b < a → ends m.text m.regionLimit m.prog b = []) ∧
        m.regionLimit ∈ reachSet m.text m.regionLimit m.prog a) ∧
    uregex_find64 m (-1) = findRun m m.regionStart ∧
    uregex_findNext m = findRun m (if m.matchValid then
        (if m.matchEnd = m.matchStart then m.matchEnd.toNat + 1 else m.matchEnd.toNat)
      else m.regionStart) := by
  refine ⟨?_, ?_, ?_, ?_, ?_⟩
  · have hdisp : uregex_matches64 m (-1) = matchAttempt m m.regionStart m.regionLimit := by
      unfold uregex_matches64
      rw [if_pos rfl]
    rw [hdisp]
    unfold uregex_hitEnd
    rw [matchAttempt_hitEnd]
    simp
  · have hdisp : uregex_lookingAt64 m (-1) =
        lookingAtAttempt m m.regionStart m.regionLimit := by
      unfold uregex_lookingAt64
      rw [if_pos rfl]
    rw [hdisp]
    unfold uregex_hitEnd
    rw [lookingAtAttempt_hitEnd]
    simp
  · intro s
    unfold uregex_hitEnd
    rw [findRun_hitEnd]
    exact findFrom_hit s
  · unfold uregex_find64
    rw [if_pos rfl]
  · rfl

/-- Witness for C7: the matches clause of the theorem at the concrete matcher
mC7, whose single attempt runs the cursor to the region limit. -/
theorem uregex_hitEnd_spec_witness :
    (uregex_hitEnd (uregex_matches64 mC7 (-1)).1).1 = true ↔
      mC7.regionLimit ∈ reachSet mC7.text mC7.regionLimit mC7.prog mC7.regionStart :=
  (uregex_hitEnd_spec mC7).1

/-- C8: on a freshly bound matcher, before any bounds setter has been called,
hasTransparentBounds returns false (opaque bounds are the default) and
hasAnchoringBounds returns true (anchoring bounds are the default). -/
theorem uregex_bounds_defaults_spec (r : Regex) (t : List Char) :
    (uregex_hasTransparentBounds (Matcher.bind r t)).1 = false ∧
    (uregex_hasAnchoringBounds (Matcher.bind r t)).1 = true :=
  ⟨rfl, rfl⟩

/-- C9: a pattern that compiles successfully is recoverable from the compiled
object exactly: uregex_pattern returns the source form and its length,
uregex_patternUText returns the same pattern text, and compiling the same
contents supplied as a UText yields the same compiled object. -/
theorem uregex_pattern_roundtrip_spec (pat : String) (flags : Nat)
    (rx : MatchingProgram) (h : uregex_open pat flags = some rx) :
    uregex_pattern rx = (pat, pat.length) ∧
    uregex_patternUText rx = pat ∧
    uregex_openUText pat flags = some rx := by
  unfold uregex_open at h
  split at h
  · exact Option.noConfusion h
  · rename_i count names heq
    split at h
    · rename_i hnd
      obtain rfl := Option.some.inj h
      refine ⟨rfl, rfl, ?_⟩
      unfold uregex_openUText uregex_open
      rw [heq]
      simp [hnd]
    · exact Option.noConfusion h

/-- Witness for C9: the concrete pattern of two capturing groups compiles, and
the round-trip holds for it via the theorem. -/
theorem uregex_pattern_roundtrip_spec_witness :
    uregex_pattern ⟨"(a)(b)", 0, 2, []⟩ = ("(a)(b)", "(a)(b)".length) ∧
    uregex_patternUText ⟨"(a)(b)", 0, 2, []⟩ = "(a)(b)" ∧
    uregex_openUText "(a)(b)" 0 = some ⟨"(a)(b)", 0, 2, []⟩ :=
  uregex_pattern_roundtrip_spec "(a)(b)" 0 ⟨"(a)(b)", 0, 2, []⟩ (by decide)

/-- C10: binding a zero-length subject text is permitted and is not an error,
and afterwards the match operations behave exactly as matching the pattern
against the empty string: matches, lookingAt and find succeed precisely when
the pattern matches the empty word. -/
theorem uregex_setText_empty_spec (m : Matcher) :
    (uregex_setText m []).2 = .U_ZERO_ERROR ∧
    (((uregex_matches64 (uregex_setText m []).1 (-1)).2.1 = true) ↔
      RMatch m.prog []) ∧
    (((uregex_lookingAt64 (uregex_setText m []).1 (-1)).2.1 = true) ↔
      RMatch m.prog []) ∧
    (((uregex_find64 (uregex_setText m []).1 (-1)).2.1 = true) ↔
      RMatch m.prog []) := by
  refine ⟨rfl, ?_, ?_, ?_⟩
  · have h := uregex_matches64_region_spec (uregex_setText m []).1
      (le_refl 0) (by simp [uregex_setText])
    simpa [uregex_setText, slice] using h
  · have hdisp : uregex_lookingAt64 (uregex_setText m []).1 (-1) =
        lookingAtAttempt (uregex_setText m []).1 0 0 := by
      unfold uregex_lookingAt64
      rw [if_pos rfl]
      rfl
    rw [hdisp, lookingAtAttempt_success_iff]
    show ends ([] : List Char) 0 m.prog 0 ≠ [] ↔ RMatch m.prog []
    constructor
    · intro hne
      obtain ⟨q, hq⟩ := List.exists_mem_of_ne_nil _ hne
      obtain ⟨h1, h2, h3⟩ :=
        (mem_ends_iff (t := ([] : List Char)) (L := 0) (le_refl 0)
          m.prog 0 (le_refl 0) q).mp hq
      have hq0 : q = 0 := by omega
      subst hq0
      simpa [slice] using h3
    · intro hrm hnil
      have hmem := (mem_ends_iff (t := ([] : List Char)) (L := 0) (le_refl 0)
        m.prog 0 (le_refl 0) 0).mpr ⟨le_refl 0, le_refl 0, by simpa [slice] using hrm⟩
      rw [hnil] at hmem
      simp at hmem
  · have hdisp : uregex_find64 (uregex_setText m []).1 (-1) =
        findRun (uregex_setText m []).1 0 := by
      unfold uregex_find64
      rw [if_pos rfl]
      rfl
    rw [hdisp, findRun_success_iff]
    show (findFrom ([] : List Char) 0 m.prog 0).1 ≠ none ↔ RMatch m.prog []
    constructor
    · intro hne
      by_cases hends0 : ends ([] : List Char) 0 m.prog 0 = []
      · exfalso
        apply hne
        rw [findFrom_none_iff]
        intro a ha1 ha2
        have ha0 : a = 0 := by omega
        subst ha0
        exact hends0
      · obtain ⟨q, hq⟩ := List.exists_mem_of_ne_nil _ hends0
        obtain ⟨h1, h2, h3⟩ :=
          (mem_ends_iff (t := ([] : List Char)) (L := 0) (le_refl 0)
            m.prog 0 (le_refl 0) q).mp hq
        have hq0 : q = 0 := by omega
        subst hq0
        simpa [slice] using h3
    · intro hrm hnone
      rw [findFrom_none_iff] at hnone
      have h0 := hnone 0 (le_refl 0) (le_refl 0)
      have hmem := (mem_ends_iff (t := ([] : List Char)) (L := 0) (le_refl 0)
        m.prog 0 (le_refl 0) 0).mpr ⟨le_refl 0, le_refl 0, by simpa [slice] using hrm⟩
      rw [h0] at hmem
      simp at hmem

end Irregular
